import Mathlib

/-!
MSP430 identifier beacon (`testsystem/msp430-identifier/main.c`).

A shallow embedding of the software UART beacon: the three globals, the eight
port output registers, the identification table, `uart_output`, `uart_send`,
`run` and the timer interrupt handler.

Machine integers are natural numbers with explicit reduction modulo `2^16`
(`unsigned int` on the MSP430) or `2^8` (`unsigned char`, port registers).
The `int` parameters of `uart_output` are modelled by `Int`.  One call of
`run` and one execution of the interrupt handler are taken as atomic steps.
-/

namespace Identifier

/-! Constants -/

def BYTE_DURATION_IN_CLK_TICKS : Nat := 24

def TX_PAUSE_IN_CLK_TICKS : Nat := 128

/-- Default value of the `DEVICE_ID` macro (the generator may substitute another
32-bit constant, so the functions below take the identifier as a parameter). -/
def DEVICE_ID_DEFAULT : Nat := 0xDEADBEAF

/-! State -/

/-- The globals of `main.c` together with the output registers of ports 1..8. -/
structure State where
  _uart_data : Nat
  _uart_state_index : Nat
  _byte_index : Nat
  P1OUT : Nat
  P2OUT : Nat
  P3OUT : Nat
  P4OUT : Nat
  P5OUT : Nat
  P6OUT : Nat
  P7OUT : Nat
  P8OUT : Nat
  deriving DecidableEq

/-- The macro `SET_PORTS(OUT, val)`: it assigns ports 1, 2, 3, 5, 6, 7 and 8. -/
def SET_PORTS_OUT (val : Nat) (s : State) : State :=
  { s with P1OUT := val, P2OUT := val, P3OUT := val,
           P5OUT := val, P6OUT := val, P7OUT := val, P8OUT := val }

def _pin_id_lookup : List (List Nat) :=
  [[0xAA, 0xCC, 0xF0, 0x00, 0xFF, 0x00, 0x00, 0x00],
   [0xAA, 0xCC, 0xF0, 0x00, 0x00, 0xFF, 0x00, 0x00],
   [0xAA, 0xCC, 0xF0, 0x00, 0xFF, 0xFF, 0x00, 0x00],
   [0xAA, 0xCC, 0xF0, 0x00, 0x00, 0x00, 0xFF, 0x00],
   [0xAA, 0xCC, 0xF0, 0x00, 0xFF, 0x00, 0xFF, 0x00],
   [0xAA, 0xCC, 0xF0, 0x00, 0x00, 0xFF, 0xFF, 0x00],
   [0xAA, 0xCC, 0xF0, 0x00, 0xFF, 0xFF, 0xFF, 0x00],
   [0xAA, 0xCC, 0xF0, 0x00, 0x00, 0x00, 0x00, 0xFF]]

/-- The array access `_pin_id_lookup[c][j]`. -/
def pinId (c j : Nat) : Nat := (_pin_id_lookup.getD c []).getD j 0

/-- Conversion of an `unsigned int` to the 16-bit `int` parameter of `uart_output`. -/
def toInt16 (u : Nat) : Int :=
  if u % 65536 < 32768 then ((u % 65536 : Nat) : Int) else ((u % 65536 : Nat) : Int) - 65536

def uart_output (send_bit_id : Int) (index : Int) (s : State) : State :=
  if index = 0 then
    SET_PORTS_OUT 0 s
  else if index ≥ 1 ∧ index < 1 + 8 then
    if send_bit_id ≠ 0 then
      { s with P1OUT := pinId 0 (index - 1).toNat,
               P2OUT := pinId 1 (index - 1).toNat,
               P3OUT := pinId 2 (index - 1).toNat,
               P4OUT := pinId 3 (index - 1).toNat,
               P5OUT := pinId 4 (index - 1).toNat,
               P6OUT := pinId 5 (index - 1).toNat,
               P7OUT := pinId 6 (index - 1).toNat,
               P8OUT := pinId 7 (index - 1).toNat }
    else
      let bit := (s._uart_data >>> (index - 1).toNat) &&& 0x1
      if bit ≠ 0 then SET_PORTS_OUT 0xFF s else SET_PORTS_OUT 0 s
  else
    SET_PORTS_OUT 0xFF s

def uart_send (data : Nat) (s : State) : State :=
  { s with _uart_state_index := 0, _uart_data := data % 256 }

/-- The body of `run`, for a 32-bit `DEVICE_ID`. -/
def run (DEVICE_ID : Nat) (s : State) : State :=
  let s1 := uart_output (if s._byte_index = 0 then 1 else 0) (toInt16 s._uart_state_index) s
  if s1._uart_state_index > BYTE_DURATION_IN_CLK_TICKS ∧ s1._byte_index > 0 then
    let s2 := { s1 with _byte_index := (s1._byte_index + 65535) % 65536 }
    if s2._byte_index > 0 then
      uart_send ((DEVICE_ID >>> ((s2._byte_index - 1) * 8 % 65536)) &&& 0xFF) s2
    else
      uart_send 0x00 s2
  else if s1._uart_state_index > TX_PAUSE_IN_CLK_TICKS ∧ s1._byte_index = 0 then
    { s1 with _byte_index := 5 }
  else
    s1

/-- The timer interrupt handler: `_uart_state_index++` on a 16-bit counter. -/
def TIMERA0_ISR (s : State) : State :=
  { s with _uart_state_index := (s._uart_state_index + 1) % 65536 }

/-- Output register of the port driven from table row `c` (row 0 is port 1). -/
def port (s : State) (c : Nat) : Nat :=
  match c with
  | 0 => s.P1OUT
  | 1 => s.P2OUT
  | 2 => s.P3OUT
  | 3 => s.P4OUT
  | 4 => s.P5OUT
  | 5 => s.P6OUT
  | 6 => s.P7OUT
  | 7 => s.P8OUT
  | _ => 0

/-- All eight channels (ports P1..P8, table rows 0..7) are at level `v`. -/
def allChannelsAt (s : State) (v : Nat) : Prop := ∀ c, c < 8 → port s c = v

/-- The seven ports assigned by `SET_PORTS` are at level `v`. -/
def setPortsAt (s : State) (v : Nat) : Prop :=
  s.P1OUT = v ∧ s.P2OUT = v ∧ s.P3OUT = v ∧ s.P5OUT = v ∧ s.P6OUT = v ∧ s.P7OUT = v ∧
    s.P8OUT = v

/-- Level of a line carrying the bit `b`: high (`0xFF`) for 1, low (`0x00`) for 0. -/
def level (b : Nat) : Nat := if b = 1 then 0xFF else 0x00

/-- A state with payload `d`, offset `i`, byte index `b` and every port at `p`. -/
def mkState (d i b p : Nat) : State :=
  { _uart_data := d, _uart_state_index := i, _byte_index := b,
    P1OUT := p, P2OUT := p, P3OUT := p, P4OUT := p,
    P5OUT := p, P6OUT := p, P7OUT := p, P8OUT := p }

/-! Executions: interleavings of timer interrupts and polls of `run` -/

/-- One atomic step of the system: a timer interrupt or one call of `run` from the
main loop. -/
inductive Event where
  | tick
  | poll
  deriving DecidableEq

def step (D : Nat) (s : State) : Event → State
  | Event.tick => TIMERA0_ISR s
  | Event.poll => run D s

/-- State reached from `s` by the events `evs`, in order. -/
def exec (D : Nat) (s : State) (evs : List Event) : State := evs.foldl (step D) s

/-- Number of timer interrupts among the events. -/
def ticks (evs : List Event) : Nat := evs.count Event.tick

/-- The fixed schedule in which every timer interrupt is followed by `n` polls:
event number `j` (from 0) is a tick when `j` is a multiple of `n + 1`. -/
def schedule (n j : Nat) : Event := if j % (n + 1) = 0 then Event.tick else Event.poll

/-- The first `j` events of the fixed schedule. -/
def firstEvents (n j : Nat) : List Event := (List.range j).map (schedule n)

/-- State after the first `j` events of the fixed schedule, started in `s0`. -/
def stateAt (n D : Nat) (s0 : State) (j : Nat) : State := exec D s0 (firstEvents n j)

/-- The call of `run` in state `s` takes the restart branch (`_byte_index = 5`). -/
def restarts (s : State) : Prop :=
  ¬ (s._uart_state_index > BYTE_DURATION_IN_CLK_TICKS ∧ s._byte_index > 0) ∧
    s._uart_state_index > TX_PAUSE_IN_CLK_TICKS ∧ s._byte_index = 0

instance (s : State) : Decidable (restarts s) := by
  unfold restarts
  infer_instance

/-- Event number `j` of the fixed schedule is a poll that restarts the cycle. -/
def restartAt (n D : Nat) (s0 : State) (j : Nat) : Prop :=
  schedule n j = Event.poll ∧ restarts (stateAt n D s0 j)

instance (n D : Nat) (s0 : State) (j : Nat) : Decidable (restartAt n D s0 j) := by
  unfold restartAt
  infer_instance

/-- The globals as the C runtime leaves them at power-on (zero-initialised); the
port registers are arbitrary. -/
def powerOn (s : State) : Prop :=
  s._uart_data = 0 ∧ s._uart_state_index = 0 ∧ s._byte_index = 0

instance (s : State) : Decidable (powerOn s) := by
  unfold powerOn
  infer_instance

/-- The state right after a restart poll under a fixed schedule: payload 0, offset
129, byte index 5, the seven `SET_PORTS` ports high and P4 low. -/
def restartState : State :=
  { _uart_data := 0, _uart_state_index := 129, _byte_index := 5,
    P1OUT := 0xFF, P2OUT := 0xFF, P3OUT := 0xFF, P4OUT := 0x00,
    P5OUT := 0xFF, P6OUT := 0xFF, P7OUT := 0xFF, P8OUT := 0xFF }

/-- Invariant of the idle/identification phase under the fixed schedule, `j` events
having been executed: the payload is 0, the offset is at most 129 and reaches 129
only right after a tick, and P4 is low once the last identification data bit
(offset 8) has been rendered. -/
def idleInv (n : Nat) (s : State) (j : Nat) : Prop :=
  s._byte_index = 0 →
    s._uart_data = 0 ∧ s._uart_state_index ≤ 129 ∧
    (s._uart_state_index = 129 → j % (n + 1) = 1) ∧
    ((9 ≤ s._uart_state_index ∨ (s._uart_state_index = 8 ∧ j % (n + 1) ≠ 1)) →
      s.P4OUT = 0)

/-! Reading the identification table pin by pin -/

/-- The eight levels seen on pin `p` of the port of table row `c` during the data
bits of the identification byte: bit `p` of `_pin_id_lookup[c][j]` for `j = 0..7`. -/
def pinSequence (c p : Nat) : List Nat :=
  (List.range 8).map fun j => pinId c j / 2 ^ p % 2

/-- The byte a UART receiver assembles from data bits received least significant
bit first. -/
def assemble : List Nat → Nat
  | [] => 0
  | b :: bs => b + 2 * assemble bs

/-- Column `j` of the table is `0x00` on all eight channels. -/
def columnAllLow (j : Nat) : Prop := ∀ c, c < 8 → pinId c j = 0x00

/-- Column `j` of the table is `0xFF` on exactly one channel and `0x00` on every
other channel. -/
def columnOneHot (j : Nat) : Prop :=
  ∃ c, c < 8 ∧ pinId c j = 0xFF ∧ ∀ d, d < 8 → d ≠ c → pinId d j = 0x00

instance (j : Nat) : Decidable (columnAllLow j) := by
  unfold columnAllLow
  infer_instance

instance (j : Nat) : Decidable (columnOneHot j) := by
  unfold columnOneHot
  infer_instance

/-! Executions with a poll between consecutive ticks, and executions without wrap -/

/-- Scan of an event list for two timer interrupts with no poll between them; the
flag tells whether a tick may come next. -/
def polledBetweenTicks : Bool → List Event → Bool
  | _, [] => true
  | ok, Event.tick :: evs => ok && polledBetweenTicks false evs
  | _, Event.poll :: evs => polledBetweenTicks true evs

/-- In the execution `evs`, `run` is polled at least once between any two consecutive
timer interrupts. -/
def wellPolled (evs : List Event) : Prop := polledBetweenTicks true evs = true

instance (evs : List Event) : Decidable (wellPolled evs) := by
  unfold wellPolled
  infer_instance

/-- Scan of the execution `evs` from `s` for a timer interrupt that finds the 16-bit
counter at its maximum. -/
def noWrapScan (D : Nat) : State → List Event → Bool
  | _, [] => true
  | s, Event.tick :: evs =>
    decide (s._uart_state_index + 1 < 65536) && noWrapScan D (TIMERA0_ISR s) evs
  | s, Event.poll :: evs => noWrapScan D (run D s) evs

/-- In the execution `evs` from `s` the increment of `TIMERA0_ISR` never wraps. -/
def noWrap (D : Nat) (s : State) (evs : List Event) : Prop := noWrapScan D s evs = true

instance (D : Nat) (s : State) (evs : List Event) : Decidable (noWrap D s evs) := by
  unfold noWrap
  infer_instance

/-- The eight port levels P1..P8 of a state. -/
def levels (s : State) : List Nat :=
  [s.P1OUT, s.P2OUT, s.P3OUT, s.P4OUT, s.P5OUT, s.P6OUT, s.P7OUT, s.P8OUT]

/-- Invariant of executions without wrap: the byte index is at most 5, the counter
is a 16-bit value, and the counter is above 128 whenever `_byte_index = 5`. -/
def fiveInv (s : State) : Prop :=
  s._byte_index ≤ 5 ∧ s._uart_state_index < 65536 ∧
    (s._byte_index = 5 → 128 < s._uart_state_index)

/-- Invariant of executions with a poll between consecutive ticks; `polled` tells
whether the last event was a poll (or nothing has happened yet). The offset is
bounded by the threshold of the current phase plus one, and reaches that bound only
right after a tick. -/
def tickInv (s : State) (polled : Bool) : Prop :=
  s._byte_index ≤ 5 ∧
  (s._byte_index = 0 →
    s._uart_state_index ≤ 129 ∧ (s._uart_state_index = 129 → polled = false)) ∧
  (1 ≤ s._byte_index → s._byte_index ≤ 4 →
    s._uart_state_index ≤ 25 ∧ (s._uart_state_index = 25 → polled = false)) ∧
  (s._byte_index = 5 →
    129 ≤ s._uart_state_index ∧ s._uart_state_index ≤ 130 ∧
    (s._uart_state_index = 130 → polled = false))

/-- Invariant of one cycle under the fixed schedule with `n + 1 = k ≥ 3` events per
tick period. `m` events have been executed since the restart poll, `p` is the
position in the schedule, `T` the number of ticks since the restart and `φ` (from 1
to `k`) the number of events already executed in the current tick period. The byte
index and the offset are determined by `T`: byte `4 - i` is being sent during ticks
`25 i .. 25 i + 25`, and the identification byte and pause from tick 100 on. -/
def periodInv (k : Nat) (s : State) (p m T φ : Nat) : Prop :=
  1 ≤ φ ∧ φ ≤ k ∧ m + 2 = T * k + φ ∧ p % k = φ % k ∧
  ((s._byte_index = 5 ∧ s._uart_state_index = 129 ∧ T = 0 ∧ φ = 2) ∨
   (1 ≤ s._byte_index ∧ s._byte_index ≤ 4 ∧
      T = (4 - s._byte_index) * 25 + s._uart_state_index ∧
      s._uart_state_index ≤ 25 ∧ (s._uart_state_index = 25 → φ = 1)) ∨
   (s._byte_index = 0 ∧ T = 100 + s._uart_state_index ∧
      s._uart_state_index ≤ 129 ∧ (s._uart_state_index = 129 → φ = 1)))

/-! Frame lemmas: `uart_output` only touches the port registers -/

theorem uart_output_data (sb index : Int) (s : State) :
    (uart_output sb index s)._uart_data = s._uart_data := by
  unfold uart_output SET_PORTS_OUT
  dsimp only
  split_ifs <;> rfl

theorem uart_output_state_index (sb index : Int) (s : State) :
    (uart_output sb index s)._uart_state_index = s._uart_state_index := by
  unfold uart_output SET_PORTS_OUT
  dsimp only
  split_ifs <;> rfl

theorem uart_output_byte_index (sb index : Int) (s : State) :
    (uart_output sb index s)._byte_index = s._byte_index := by
  unfold uart_output SET_PORTS_OUT
  dsimp only
  split_ifs <;> rfl

/-! Device identifier bytes (`run`, `uart_send`) -/

theorem and_255_eq_mod (x : Nat) : x &&& 0xFF = x % 256 :=
  Nat.and_pow_two_sub_one_eq_mod x 8

theorem run_advance (D : Nat) (s : State) (hi : 24 < s._uart_state_index)
    (hb0 : 2 ≤ s._byte_index) (hb1 : s._byte_index ≤ 5) :
    (run D s)._byte_index = s._byte_index - 1 ∧
    (run D s)._uart_state_index = 0 ∧
    (run D s)._uart_data = (D >>> (8 * (s._byte_index - 2))) % 256 := by
  have h1 : (s._byte_index + 65535) % 65536 = s._byte_index - 1 := by omega
  have h2 : (s._byte_index - 1 - 1) * 8 % 65536 = 8 * (s._byte_index - 2) := by omega
  have h3 : 0 < s._byte_index - 1 := by omega
  simp only [run, uart_output_state_index, uart_output_byte_index, uart_send,
    BYTE_DURATION_IN_CLK_TICKS, h1, h2, h3, and_255_eq_mod]
  rw [if_pos ⟨hi, by omega⟩]
  simp [Nat.mod_mod]

/-- C1. For a 32-bit device identifier `D` and `k = 4, 3, 2, 1`: a call of `run`
with `_byte_index = k + 1` and `_uart_state_index > 24` sets `_byte_index` to `k`
and loads `_uart_data = (D >> 8*(k-1)) mod 256`; hence the four payloads loaded
from `_byte_index = 5, 4, 3, 2`, read most significant byte first, give back `D`. -/
theorem run_loads_identifier_bytes (D : Nat) (hD : D < 2 ^ 32) :
    (∀ (s : State) (k : Nat), 1 ≤ k → k ≤ 4 → s._byte_index = k + 1 →
        24 < s._uart_state_index →
        (run D s)._byte_index = k ∧ (run D s)._uart_data = (D >>> (8 * (k - 1))) % 256) ∧
    (∀ s5 s4 s3 s2 : State,
        s5._byte_index = 5 → s4._byte_index = 4 → s3._byte_index = 3 → s2._byte_index = 2 →
        24 < s5._uart_state_index → 24 < s4._uart_state_index →
        24 < s3._uart_state_index → 24 < s2._uart_state_index →
        (run D s5)._uart_data * 2 ^ 24 + (run D s4)._uart_data * 2 ^ 16 +
          (run D s3)._uart_data * 2 ^ 8 + (run D s2)._uart_data = D) := by
  refine ⟨?_, ?_⟩
  · intro s k hk1 hk4 hb hi
    obtain ⟨h1, -, h3⟩ := run_advance D s hi (by omega) (by omega)
    refine ⟨by omega, ?_⟩
    rw [h3, hb]
    rfl
  · intro s5 s4 s3 s2 h5 h4 h3 h2 i5 i4 i3 i2
    rw [(run_advance D s5 i5 (by omega) (by omega)).2.2,
      (run_advance D s4 i4 (by omega) (by omega)).2.2,
      (run_advance D s3 i3 (by omega) (by omega)).2.2,
      (run_advance D s2 i2 (by omega) (by omega)).2.2, h5, h4, h3, h2]
    simp only [Nat.shiftRight_eq_div_pow]
    norm_num
    omega

theorem run_loads_identifier_bytes_witness :
    (0x12345678 : Nat) < 2 ^ 32 ∧
    (run 0x12345678 (mkState 0 25 5 0))._byte_index = 4 ∧
    (run 0x12345678 (mkState 0 25 5 0))._uart_data = 0x12 ∧
    (run 0x12345678 (mkState 0x12 25 4 0))._uart_data = 0x34 ∧
    (run 0x12345678 (mkState 0x34 25 3 0))._uart_data = 0x56 ∧
    (run 0x12345678 (mkState 0x56 25 2 0))._uart_data = 0x78 ∧
    (run 0x12345678 (mkState 0 25 5 0))._uart_data * 2 ^ 24 +
      (run 0x12345678 (mkState 0x12 25 4 0))._uart_data * 2 ^ 16 +
      (run 0x12345678 (mkState 0x34 25 3 0))._uart_data * 2 ^ 8 +
      (run 0x12345678 (mkState 0x56 25 2 0))._uart_data = 0x12345678 :=
  have h := run_loads_identifier_bytes 0x12345678 (by norm_num)
  ⟨by norm_num,
   (h.1 (mkState 0 25 5 0) 4 (by decide) (by decide) rfl (by decide)).1,
   (h.1 (mkState 0 25 5 0) 4 (by decide) (by decide) rfl (by decide)).2.trans (by decide),
   (h.1 (mkState 0x12 25 4 0) 3 (by decide) (by decide) rfl (by decide)).2.trans (by decide),
   (h.1 (mkState 0x34 25 3 0) 2 (by decide) (by decide) rfl (by decide)).2.trans (by decide),
   (h.1 (mkState 0x56 25 2 0) 1 (by decide) (by decide) rfl (by decide)).2.trans (by decide),
   h.2 (mkState 0 25 5 0) (mkState 0x12 25 4 0) (mkState 0x34 25 3 0) (mkState 0x56 25 2 0)
     rfl rfl rfl rfl (by decide) (by decide) (by decide) (by decide)⟩

/-! Frame output driver (`uart_output`) -/

theorem shift_and_one (x n : Nat) : (x >>> n) &&& 1 = x / 2 ^ n % 2 := by
  rw [Nat.shiftRight_eq_div_pow, Nat.and_one_is_mod]

/-- C2. For every payload, prior port state and index in 1..8, the identification
branch of `uart_output` leaves the port of table row `c` equal to
`_pin_id_lookup[c][index-1]`, whatever `_uart_data` holds. -/
theorem uart_output_identification (s : State) (sb index : Int) (c : Nat)
    (hsb : sb ≠ 0) (h1 : 1 ≤ index) (h8 : index ≤ 8) (hc : c < 8) :
    port (uart_output sb index s) c = pinId c (index - 1).toNat ∧
    ∀ d : Nat, port (uart_output sb index { s with _uart_data := d }) c =
      port (uart_output sb index s) c := by
  have hne : index ≠ 0 := by omega
  have hr : index ≥ 1 ∧ index < 1 + 8 := ⟨h1, by omega⟩
  simp only [uart_output, if_neg hne, if_pos hr, if_pos hsb]
  interval_cases c <;> exact ⟨rfl, fun _ => rfl⟩

theorem uart_output_identification_witness :
    port (uart_output 1 5 (mkState 0x5A 5 0 0x33)) 2 = 0xFF ∧
    ∀ d : Nat, port (uart_output 1 5 { mkState 0x5A 5 0 0x33 with _uart_data := d }) 2 =
      port (uart_output 1 5 (mkState 0x5A 5 0 0x33)) 2 :=
  have h := uart_output_identification (mkState 0x5A 5 0 0x33) 1 5 2
    (by decide) (by decide) (by decide) (by decide)
  ⟨h.1.trans (by decide), h.2⟩

/-- C3 (evaluation of the code). With `DEVICE_ID = 0xDEADBEAF`, power-on with all
ports low and every tick followed by one poll, the state before event 263 has
payload `0xDE`, offset 2 and byte index 4. Bit 1 of `0xDE` is 1, so the data bit is
high, and `uart_output(false, 2)` drives the seven `SET_PORTS` ports to `0xFF` but
leaves P4 at `0x00`: the eight channels are not all at the level of the data bit. -/
theorem P4_stale_after_data_bit :
    stateAt 1 0xDEADBEAF (mkState 0 0 0 0x00) 263 = mkState 0xDE 2 4 0x00 ∧
    level ((mkState 0xDE 2 4 0x00)._uart_data / 2 ^ (2 - 1 : Int).toNat % 2) = 0xFF ∧
    levels (uart_output 0 2 (mkState 0xDE 2 4 0x00)) =
      [0xFF, 0xFF, 0xFF, 0x00, 0xFF, 0xFF, 0xFF, 0xFF] ∧
    levels (run 0xDEADBEAF (mkState 0xDE 2 4 0x00)) =
      [0xFF, 0xFF, 0xFF, 0x00, 0xFF, 0xFF, 0xFF, 0xFF] ∧
    ¬ allChannelsAt (uart_output 0 2 (mkState 0xDE 2 4 0x00))
        (level ((mkState 0xDE 2 4 0x00)._uart_data / 2 ^ (2 - 1 : Int).toNat % 2)) :=
  ⟨by decide!, by decide, by decide, by decide,
   fun h => absurd (h 3 (by decide)) (by decide)⟩

/-- What the ordinary data branch does write: for every payload, prior port state
and index in 1..8, after `uart_output` with `send_bit_id = false` each of the seven
ports P1, P2, P3, P5, P6, P7, P8 is at the level of bit `index-1` of `_uart_data`
(bit 0 = LSB, `0xFF` for 1 and `0x00` for 0). -/
theorem uart_output_data_bit (s : State) (index : Int) (h1 : 1 ≤ index) (h8 : index ≤ 8) :
    setPortsAt (uart_output 0 index s)
      (level (s._uart_data / 2 ^ (index - 1).toNat % 2)) := by
  have hne : index ≠ 0 := by omega
  have hr : index ≥ 1 ∧ index < 1 + 8 := ⟨h1, by omega⟩
  have hm := Nat.mod_two_eq_zero_or_one (s._uart_data / 2 ^ (index - 1).toNat)
  simp only [uart_output, if_neg hne, if_pos hr, shift_and_one, level]
  generalize s._uart_data / 2 ^ (index - 1).toNat % 2 = b at hm
  rcases hm with hm | hm <;> subst hm <;> simp [setPortsAt, SET_PORTS_OUT]

theorem uart_output_data_bit_witness :
    setPortsAt (uart_output 0 3 (mkState 0x34 3 3 0x00)) 0xFF ∧
    setPortsAt (uart_output 0 4 (mkState 0x34 4 3 0xFF)) 0x00 :=
  ⟨uart_output_data_bit (mkState 0x34 3 3 0x00) 3 (by decide) (by decide),
   uart_output_data_bit (mkState 0x34 4 3 0xFF) 4 (by decide) (by decide)⟩

/-- C4 (evaluation of the code). At power-on with the output registers at `0xFF`
(`init` never writes them), the first poll renders the start bit: `uart_output(true,
0)` drives the seven `SET_PORTS` ports to `0x00` but leaves P4 at `0xFF`, so not
every one of the eight channels is driven low. -/
theorem P4_stale_after_start_bit :
    powerOn (mkState 0 0 0 0xFF) ∧
    levels (uart_output 1 0 (mkState 0 0 0 0xFF)) =
      [0x00, 0x00, 0x00, 0xFF, 0x00, 0x00, 0x00, 0x00] ∧
    levels (run 0xDEADBEAF (mkState 0 0 0 0xFF)) =
      [0x00, 0x00, 0x00, 0xFF, 0x00, 0x00, 0x00, 0x00] ∧
    ¬ allChannelsAt (uart_output 1 0 (mkState 0 0 0 0xFF)) 0x00 :=
  ⟨by decide, by decide, by decide, fun h => absurd (h 3 (by decide)) (by decide)⟩

/-- What the start branch does write: for every payload, either value of
`send_bit_id` and every prior port state, after `uart_output(send_bit_id, 0)` each
of the seven ports P1, P2, P3, P5, P6, P7, P8 is low (`0x00`). -/
theorem uart_output_start (s : State) (sb : Int) :
    setPortsAt (uart_output sb 0 s) 0x00 := by
  simp [uart_output, setPortsAt, SET_PORTS_OUT]

/-- C5 (evaluation of the code). With `DEVICE_ID = 0xDEADBEAF`, power-on with all
ports low and every tick followed by one poll, the state before event 17 has offset
9 and `_byte_index = 0`, with P4 at `0x00` as the last identification data bit left
it. `uart_output(true, 9)` drives the seven `SET_PORTS` ports to `0xFF` but leaves
P4 at `0x00`: not every one of the eight channels is driven high, and P4 stays low
up to the restart. -/
theorem P4_stale_after_stop_bit :
    (stateAt 1 0xDEADBEAF (mkState 0 0 0 0x00) 17)._uart_state_index = 9 ∧
    (stateAt 1 0xDEADBEAF (mkState 0 0 0 0x00) 17)._byte_index = 0 ∧
    levels (stateAt 1 0xDEADBEAF (mkState 0 0 0 0x00) 17) =
      [0x00, 0x00, 0x00, 0x00, 0x00, 0x00, 0x00, 0xFF] ∧
    levels (uart_output 1 9 (stateAt 1 0xDEADBEAF (mkState 0 0 0 0x00) 17)) =
      [0xFF, 0xFF, 0xFF, 0x00, 0xFF, 0xFF, 0xFF, 0xFF] ∧
    levels (stateAt 1 0xDEADBEAF (mkState 0 0 0 0x00) 18) =
      [0xFF, 0xFF, 0xFF, 0x00, 0xFF, 0xFF, 0xFF, 0xFF] ∧
    levels (stateAt 1 0xDEADBEAF (mkState 0 0 0 0x00) 258) =
      [0xFF, 0xFF, 0xFF, 0x00, 0xFF, 0xFF, 0xFF, 0xFF] ∧
    ¬ allChannelsAt (uart_output 1 9 (stateAt 1 0xDEADBEAF (mkState 0 0 0 0x00) 17)) 0xFF :=
  ⟨by decide!, by decide!, by decide!, by decide!, by decide!, by decide!,
   fun h => absurd (h 3 (by decide)) (by decide!)⟩

/-- What the stop/idle branch does write: for every index above 8, every payload,
either value of `send_bit_id` and every prior port state, after
`uart_output(send_bit_id, index)` each of the seven ports P1, P2, P3, P5, P6, P7,
P8 is high (`0xFF`). -/
theorem uart_output_stop (s : State) (sb index : Int) (h : 8 < index) :
    setPortsAt (uart_output sb index s) 0xFF := by
  have hne : index ≠ 0 := by omega
  have hr : ¬ (index ≥ 1 ∧ index < 1 + 8) := by omega
  simp only [uart_output, if_neg hne, if_neg hr]
  simp [setPortsAt, SET_PORTS_OUT]

theorem uart_output_stop_witness :
    setPortsAt (uart_output 1 129 (mkState 0x00 129 0 0x00)) 0xFF :=
  uart_output_stop (mkState 0x00 129 0 0x00) 1 129 (by decide)

/-! Sequencer timing (`run`, `TIMERA0_ISR`) -/

theorem exec_append (D : Nat) (s : State) (l1 l2 : List Event) :
    exec D s (l1 ++ l2) = exec D (exec D s l1) l2 := by
  simp [exec, List.foldl_append]

theorem ticks_cons_tick (evs : List Event) : ticks (Event.tick :: evs) = ticks evs + 1 := by
  simp [ticks]

theorem ticks_cons_poll (evs : List Event) : ticks (Event.poll :: evs) = ticks evs := by
  simp [ticks]

/-- C6 (evaluation of the code). With `DEVICE_ID = 0xDEADBEAF`, take the poll that
loads identifier byte 4 (`0xDE`) and then let every tick be followed by one poll:
after 24 ticks the byte index is still 4 and the payload still `0xDE`; only the poll
after the 25th tick loads the next byte (`0xAD`), and likewise for the bytes `0xBE`
and `0xAF`. Each identifier byte occupies 25 ticks, not 24. -/
theorem byte_occupies_25_ticks :
    (run 0xDEADBEAF (mkState 0 129 5 0xFF))._byte_index = 4 ∧
    (run 0xDEADBEAF (mkState 0 129 5 0xFF))._uart_data = 0xDE ∧
    (run 0xDEADBEAF (mkState 0 129 5 0xFF))._uart_state_index = 0 ∧
    ticks (firstEvents 1 48) = 24 ∧ ticks (firstEvents 1 50) = 25 ∧
    (stateAt 1 0xDEADBEAF (run 0xDEADBEAF (mkState 0 129 5 0xFF)) 48)._byte_index = 4 ∧
    (stateAt 1 0xDEADBEAF (run 0xDEADBEAF (mkState 0 129 5 0xFF)) 48)._uart_data = 0xDE ∧
    (stateAt 1 0xDEADBEAF (run 0xDEADBEAF (mkState 0 129 5 0xFF)) 48)._uart_state_index = 24 ∧
    (stateAt 1 0xDEADBEAF (run 0xDEADBEAF (mkState 0 129 5 0xFF)) 50)._byte_index = 3 ∧
    (stateAt 1 0xDEADBEAF (run 0xDEADBEAF (mkState 0 129 5 0xFF)) 50)._uart_data = 0xAD ∧
    (stateAt 1 0xDEADBEAF (run 0xDEADBEAF (mkState 0 129 5 0xFF)) 50)._uart_state_index = 0 ∧
    (stateAt 1 0xDEADBEAF (run 0xDEADBEAF (mkState 0 129 5 0xFF)) 98)._byte_index = 3 ∧
    (stateAt 1 0xDEADBEAF (run 0xDEADBEAF (mkState 0 129 5 0xFF)) 100)._byte_index = 2 ∧
    (stateAt 1 0xDEADBEAF (run 0xDEADBEAF (mkState 0 129 5 0xFF)) 100)._uart_data = 0xBE ∧
    (stateAt 1 0xDEADBEAF (run 0xDEADBEAF (mkState 0 129 5 0xFF)) 148)._byte_index = 2 ∧
    (stateAt 1 0xDEADBEAF (run 0xDEADBEAF (mkState 0 129 5 0xFF)) 150)._byte_index = 1 ∧
    (stateAt 1 0xDEADBEAF (run 0xDEADBEAF (mkState 0 129 5 0xFF)) 150)._uart_data = 0xAF ∧
    (stateAt 1 0xDEADBEAF (run 0xDEADBEAF (mkState 0 129 5 0xFF)) 198)._byte_index = 1 ∧
    (stateAt 1 0xDEADBEAF (run 0xDEADBEAF (mkState 0 129 5 0xFF)) 200)._byte_index = 0 := by
  decide!

theorem run_hold (D : Nat) (s : State)
    (h : (s._byte_index = 0 ∧ s._uart_state_index ≤ 128) ∨
         (0 < s._byte_index ∧ s._uart_state_index ≤ 24)) :
    (run D s)._byte_index = s._byte_index ∧ (run D s)._uart_data = s._uart_data ∧
    (run D s)._uart_state_index = s._uart_state_index := by
  have c1 : ¬ (s._uart_state_index > 24 ∧ s._byte_index > 0) := by omega
  have c2 : ¬ (s._uart_state_index > 128 ∧ s._byte_index = 0) := by omega
  simp only [run, uart_output_state_index, uart_output_byte_index,
    BYTE_DURATION_IN_CLK_TICKS, TX_PAUSE_IN_CLK_TICKS, if_neg c1, if_neg c2,
    uart_output_data, and_self]

theorem run_restart (D : Nat) (s : State) (hb : s._byte_index = 0)
    (hi : 128 < s._uart_state_index) :
    run D s = { uart_output 1 (toInt16 s._uart_state_index) s with _byte_index := 5 } := by
  have c1 : ¬ (s._uart_state_index > 24 ∧ s._byte_index > 0) := by omega
  have c2 : s._uart_state_index > 128 ∧ s._byte_index = 0 := ⟨hi, hb⟩
  simp only [run, uart_output_state_index, uart_output_byte_index,
    BYTE_DURATION_IN_CLK_TICKS, TX_PAUSE_IN_CLK_TICKS, if_neg c1, if_pos c2]
  rw [if_pos hb]

/-- While the offset stays at or below the threshold of the current phase (128 when
`_byte_index = 0`, 24 otherwise) no interleaving of ticks and polls changes the byte
index or the payload, and the offset counts the ticks. -/
theorem exec_hold (D : Nat) (evs : List Event) :
    ∀ s : State,
      ((s._byte_index = 0 ∧ s._uart_state_index + ticks evs ≤ 128) ∨
       (0 < s._byte_index ∧ s._uart_state_index + ticks evs ≤ 24)) →
      (exec D s evs)._byte_index = s._byte_index ∧
      (exec D s evs)._uart_data = s._uart_data ∧
      (exec D s evs)._uart_state_index = s._uart_state_index + ticks evs := by
  induction evs with
  | nil => intro s _; simp [exec, ticks]
  | cons e evs ih =>
    intro s h
    cases e with
    | tick =>
      rw [ticks_cons_tick] at h
      have hs : (TIMERA0_ISR s)._uart_state_index = s._uart_state_index + 1 := by
        simp only [TIMERA0_ISR]
        omega
      have hb : (TIMERA0_ISR s)._byte_index = s._byte_index := rfl
      have hd : (TIMERA0_ISR s)._uart_data = s._uart_data := rfl
      have := ih (TIMERA0_ISR s) (by rw [hs, hb]; omega)
      rw [hs, hb, hd] at this
      have he : exec D s (Event.tick :: evs) = exec D (TIMERA0_ISR s) evs := rfl
      rw [he, ticks_cons_tick]
      refine ⟨this.1, this.2.1, ?_⟩
      rw [this.2.2]
      omega
    | poll =>
      rw [ticks_cons_poll] at h
      obtain ⟨hb, hd, hs⟩ := run_hold D s (by omega)
      have := ih (run D s) (by rw [hs, hb]; exact h)
      rw [hs, hb, hd] at this
      have he : exec D s (Event.poll :: evs) = exec D (run D s) evs := rfl
      rw [he, ticks_cons_poll]
      exact this

/-- C7 (as stated, refuted). From the state in which the identification byte has
just been loaded (offset 0, `_byte_index = 0`), with every tick followed by one
poll, the cycle has restarted (`_byte_index = 5`) after 129 ticks, well before
`24 + 128 = 152` ticks have elapsed since the load. -/
theorem restart_before_152_ticks :
    ticks (firstEvents 1 258) = 129 ∧
    129 < BYTE_DURATION_IN_CLK_TICKS + TX_PAUSE_IN_CLK_TICKS ∧
    (stateAt 1 0xDEADBEAF (mkState 0 0 0 0) 258)._byte_index = 5 := by
  decide!

/-- C7 (amended). After the identification byte's payload is loaded (offset reset
to 0, `_byte_index = 0`) the sequencer stays idle (`_byte_index = 0`) through every
interleaving of ticks and polls containing at most `TX_PAUSE_IN_CLK_TICKS = 128`
ticks, counted from that load; the first poll after the 129th tick restarts the
cycle by setting `_byte_index = 5`. -/
theorem idle_pause_counts_from_load (D : Nat) (s : State) (evs : List Event)
    (hb : s._byte_index = 0) (hi : s._uart_state_index = 0) :
    (ticks evs ≤ TX_PAUSE_IN_CLK_TICKS → (exec D s evs)._byte_index = 0) ∧
    (ticks evs = TX_PAUSE_IN_CLK_TICKS →
      (exec D s (evs ++ [Event.tick]))._byte_index = 0 ∧
      (exec D s (evs ++ [Event.tick, Event.poll]))._byte_index = 5) := by
  simp only [TX_PAUSE_IN_CLK_TICKS]
  refine ⟨fun ht => ?_, fun ht => ?_⟩
  · rw [(exec_hold D evs s (Or.inl ⟨hb, by omega⟩)).1, hb]
  · obtain ⟨h1, -, h3⟩ := exec_hold D evs s (Or.inl ⟨hb, by omega⟩)
    have ht1 : exec D s (evs ++ [Event.tick]) = TIMERA0_ISR (exec D s evs) := by
      rw [exec_append]; rfl
    have ht2 : exec D s (evs ++ [Event.tick, Event.poll])
        = run D (TIMERA0_ISR (exec D s evs)) := by
      rw [exec_append]; rfl
    have hb1 : (TIMERA0_ISR (exec D s evs))._byte_index = 0 := by
      rw [← h1.trans hb]; rfl
    have hs1 : (TIMERA0_ISR (exec D s evs))._uart_state_index = 129 := by
      simp only [TIMERA0_ISR, h3, hi, ht]
    rw [ht1, ht2, run_restart D _ hb1 (by omega)]
    exact ⟨hb1, rfl⟩

theorem idle_pause_counts_from_load_witness :
    (exec 0xDEADBEAF (mkState 0 0 0 0) (firstEvents 2 384))._byte_index = 0 ∧
    (exec 0xDEADBEAF (mkState 0 0 0 0) (firstEvents 2 384 ++ [Event.tick]))._byte_index = 0 ∧
    (exec 0xDEADBEAF (mkState 0 0 0 0)
      (firstEvents 2 384 ++ [Event.tick, Event.poll]))._byte_index = 5 :=
  have h := idle_pause_counts_from_load 0xDEADBEAF (mkState 0 0 0 0) (firstEvents 2 384)
    rfl rfl
  ⟨h.1 (by decide!), h.2 (by decide!)⟩

/-! Cycle idempotence under a fixed schedule -/

theorem stateAt_zero (n D : Nat) (s0 : State) : stateAt n D s0 0 = s0 := rfl

theorem stateAt_succ (n D : Nat) (s0 : State) (j : Nat) :
    stateAt n D s0 (j + 1) = step D (stateAt n D s0 j) (schedule n j) := by
  simp [stateAt, firstEvents, List.range_succ, exec, List.foldl_append]

theorem toInt16_small (u : Nat) (h : u < 32768) : toInt16 u = (u : Int) := by
  have h1 : u % 65536 = u := Nat.mod_eq_of_lt (by omega)
  simp [toInt16, h1, h]

theorem run_idle_eq (D : Nat) (s : State) (hb : s._byte_index = 0)
    (hi : s._uart_state_index ≤ 128) :
    run D s = uart_output 1 (s._uart_state_index : Int) s := by
  have c1 : ¬ (s._uart_state_index > 24 ∧ s._byte_index > 0) := by omega
  have c2 : ¬ (s._uart_state_index > 128 ∧ s._byte_index = 0) := by omega
  simp only [run, uart_output_state_index, uart_output_byte_index,
    BYTE_DURATION_IN_CLK_TICKS, TX_PAUSE_IN_CLK_TICKS, if_neg c1, if_neg c2]
  rw [if_pos hb, toInt16_small _ (by omega)]

theorem uart_output_P4_after_data (sb : Int) (i : Nat) (s : State) (hi : 9 ≤ i) :
    (uart_output sb (i : Int) s).P4OUT = s.P4OUT := by
  have hne : (i : Int) ≠ 0 := by omega
  have hr : ¬ ((i : Int) ≥ 1 ∧ (i : Int) < 1 + 8) := by omega
  simp only [uart_output, if_neg hne, if_neg hr, SET_PORTS_OUT]

theorem uart_output_P4_last_bit (s : State) : (uart_output 1 8 s).P4OUT = 0 := by
  simp [uart_output, pinId, _pin_id_lookup]

theorem run_enters_identification (D : Nat) (s : State) (hb : 0 < s._byte_index)
    (h0 : (run D s)._byte_index = 0) :
    (run D s)._uart_data = 0 ∧ (run D s)._uart_state_index = 0 := by
  simp only [run, uart_output_state_index, uart_output_byte_index,
    BYTE_DURATION_IN_CLK_TICKS, TX_PAUSE_IN_CLK_TICKS] at h0 ⊢
  have c2 : ¬ (s._uart_state_index > 128 ∧ s._byte_index = 0) := by omega
  rw [if_neg c2] at h0 ⊢
  by_cases c1 : s._uart_state_index > 24 ∧ s._byte_index > 0
  · rw [if_pos c1] at h0 ⊢
    by_cases c3 : (s._byte_index + 65535) % 65536 > 0
    · rw [if_pos c3] at h0
      simp only [uart_send] at h0
      omega
    · rw [if_neg c3]
      simp [uart_send]
  · rw [if_neg c1, uart_output_byte_index] at h0
    omega

theorem succ_mod_eq_one (j k : Nat) (hk : 2 ≤ k) : (j + 1) % k = 1 ↔ j % k = 0 := by
  have hr : j % k < k := Nat.mod_lt _ (by omega)
  have h1 : 1 % k = 1 := Nat.mod_eq_of_lt (by omega)
  rw [Nat.add_mod, h1]
  by_cases hlt : j % k + 1 < k
  · rw [Nat.mod_eq_of_lt hlt]
    omega
  · have he : j % k + 1 = k := by omega
    rw [he, Nat.mod_self]
    omega

theorem idleInv_step (n D : Nat) (s : State) (j : Nat) (hn : 1 ≤ n)
    (hinv : idleInv n s j) : idleInv n (step D s (schedule n j)) (j + 1) := by
  have hk := succ_mod_eq_one j (n + 1) (by omega)
  unfold schedule
  by_cases hq : j % (n + 1) = 0
  · rw [if_pos hq]
    intro hb
    have hb0 : s._byte_index = 0 := hb
    obtain ⟨hd, hle, h129, hp4⟩ := hinv hb0
    have hi : (TIMERA0_ISR s)._uart_state_index = (s._uart_state_index + 1) % 65536 := rfl
    have hP : (TIMERA0_ISR s).P4OUT = s.P4OUT := rfl
    have hD : (TIMERA0_ISR s)._uart_data = s._uart_data := rfl
    simp only [step]
    rw [hi, hP, hD]
    have hne : s._uart_state_index ≠ 129 := fun h => by
      have := h129 h
      omega
    refine ⟨hd, by omega, fun _ => hk.2 hq, fun h => hp4 ?_⟩
    rcases h with h | ⟨-, h⟩
    · omega
    · exact absurd (hk.2 hq) h
  · rw [if_neg hq]
    have hph : (j + 1) % (n + 1) ≠ 1 := fun h => hq (hk.1 h)
    intro hb
    simp only [step] at hb ⊢
    by_cases hb0 : s._byte_index = 0
    · obtain ⟨hd, hle, h129, hp4⟩ := hinv hb0
      by_cases hi : s._uart_state_index ≤ 128
      · rw [run_idle_eq D s hb0 hi, uart_output_data, uart_output_state_index]
        refine ⟨hd, by omega, fun h => by omega, fun h => ?_⟩
        by_cases h9 : 9 ≤ s._uart_state_index
        · rw [uart_output_P4_after_data 1 _ s h9]
          exact hp4 (Or.inl h9)
        · have h8 : s._uart_state_index = 8 := by omega
          rw [h8]
          exact uart_output_P4_last_bit s
      · rw [run_restart D s hb0 (by omega)] at hb
        have h5 : (5 : Nat) = 0 := hb
        omega
    · obtain ⟨hd, hi⟩ := run_enters_identification D s (by omega) hb
      rw [hd, hi]
      exact ⟨rfl, by omega, fun h => by omega, fun h => by omega⟩

theorem idleInv_stateAt (n D : Nat) (s0 : State) (hn : 1 ≤ n) (h0 : powerOn s0) :
    ∀ j, idleInv n (stateAt n D s0 j) j := by
  intro j
  induction j with
  | zero =>
    obtain ⟨hd, hi, -⟩ := h0
    intro _
    rw [stateAt_zero, hd, hi]
    exact ⟨rfl, by omega, fun h => by omega, fun h => by omega⟩
  | succ j ih =>
    rw [stateAt_succ]
    exact idleInv_step n D _ j hn ih

theorem run_restart_state (D : Nat) (s : State) (hb : s._byte_index = 0)
    (hi : s._uart_state_index = 129) (hd : s._uart_data = 0) (hp : s.P4OUT = 0) :
    run D s = restartState := by
  obtain ⟨d, i, b, p1, p2, p3, p4, p5, p6, p7, p8⟩ := s
  simp only at hb hi hd hp
  subst hb hi hd hp
  rfl

theorem restartAt_state (n D : Nat) (s0 : State) (j : Nat) (hn : 1 ≤ n) (h0 : powerOn s0)
    (hr : restartAt n D s0 j) :
    stateAt n D s0 (j + 1) = restartState ∧ (j + 1) % (n + 1) = 2 % (n + 1) := by
  obtain ⟨hev, -, hi, hb⟩ := hr
  simp only [TX_PAUSE_IN_CLK_TICKS] at hi
  obtain ⟨hd, hle, h129, hp4⟩ := idleInv_stateAt n D s0 hn h0 j hb
  have hi129 : (stateAt n D s0 j)._uart_state_index = 129 := by omega
  refine ⟨?_, ?_⟩
  · rw [stateAt_succ, hev]
    exact run_restart_state D _ hb hi129 hd (hp4 (Or.inl (by omega)))
  · rw [Nat.add_mod, h129 hi129, Nat.mod_eq_of_lt (show 1 < n + 1 by omega)]

theorem stateAt_shift (n D : Nat) (s0 : State) (a b : Nat)
    (hs : stateAt n D s0 a = stateAt n D s0 b) (hm : a % (n + 1) = b % (n + 1)) :
    ∀ m, stateAt n D s0 (a + m) = stateAt n D s0 (b + m) ∧
      (a + m) % (n + 1) = (b + m) % (n + 1) := by
  intro m
  induction m with
  | zero => exact ⟨hs, hm⟩
  | succ m ih =>
    obtain ⟨h1, h2⟩ := ih
    refine ⟨?_, ?_⟩
    · rw [← Nat.add_assoc, ← Nat.add_assoc, stateAt_succ, stateAt_succ, h1]
      simp only [schedule, h2]
    · rw [← Nat.add_assoc, ← Nat.add_assoc, Nat.add_mod (a + m), Nat.add_mod (b + m), h2]

/-- C8. Under the fixed schedule in which every tick is followed by the same number
`n ≥ 1` of polls, started at power-on with arbitrary port levels: the full state
(payload, offset, byte index, all eight ports) right after every restart poll is
the same state `restartState`, and after any two restarts the executions coincide
event for event (same kind of event, same state, hence the same channel levels
poll by poll, and the next restart at the same distance). -/
theorem cycle_idempotent (n D : Nat) (s0 : State) (j1 j2 : Nat) (hn : 1 ≤ n)
    (h0 : powerOn s0) (h1 : restartAt n D s0 j1) (h2 : restartAt n D s0 j2) :
    stateAt n D s0 (j1 + 1) = restartState ∧ stateAt n D s0 (j2 + 1) = restartState ∧
    ∀ m, stateAt n D s0 (j1 + 1 + m) = stateAt n D s0 (j2 + 1 + m) ∧
      schedule n (j1 + 1 + m) = schedule n (j2 + 1 + m) ∧
      (restartAt n D s0 (j1 + 1 + m) ↔ restartAt n D s0 (j2 + 1 + m)) := by
  obtain ⟨e1, p1⟩ := restartAt_state n D s0 j1 hn h0 h1
  obtain ⟨e2, p2⟩ := restartAt_state n D s0 j2 hn h0 h2
  refine ⟨e1, e2, fun m => ?_⟩
  obtain ⟨hs, hp⟩ := stateAt_shift n D s0 (j1 + 1) (j2 + 1) (e1.trans e2.symm)
    (p1.trans p2.symm) m
  have hsch : schedule n (j1 + 1 + m) = schedule n (j2 + 1 + m) := by
    simp only [schedule, hp]
  refine ⟨hs, hsch, ?_⟩
  simp only [restartAt, hs, hsch]

theorem cycle_idempotent_witness :
    restartAt 1 0xDEADBEAF (mkState 0 0 0 0x55) 257 ∧
    restartAt 1 0xDEADBEAF (mkState 0 0 0 0x55) 717 ∧
    stateAt 1 0xDEADBEAF (mkState 0 0 0 0x55) (257 + 1) = restartState ∧
    stateAt 1 0xDEADBEAF (mkState 0 0 0 0x55) (717 + 1) = restartState ∧
    ∀ m, stateAt 1 0xDEADBEAF (mkState 0 0 0 0x55) (257 + 1 + m)
        = stateAt 1 0xDEADBEAF (mkState 0 0 0 0x55) (717 + 1 + m) ∧
      schedule 1 (257 + 1 + m) = schedule 1 (717 + 1 + m) ∧
      (restartAt 1 0xDEADBEAF (mkState 0 0 0 0x55) (257 + 1 + m) ↔
        restartAt 1 0xDEADBEAF (mkState 0 0 0 0x55) (717 + 1 + m)) :=
  have h1 : restartAt 1 0xDEADBEAF (mkState 0 0 0 0x55) 257 := by decide!
  have h2 : restartAt 1 0xDEADBEAF (mkState 0 0 0 0x55) 717 := by decide!
  ⟨h1, h2, cycle_idempotent 1 0xDEADBEAF (mkState 0 0 0 0x55) 257 717 (by decide)
    (by decide) h1 h2⟩

/-! The identification table (`_pin_id_lookup`) -/

theorem assemble_pinSequence (c p : Nat) (hc : c < 8) (hp : p < 8) :
    assemble (pinSequence c p) = 16 * (c + 1) + p := by
  interval_cases c <;> interval_cases p <;> decide

/-- C9. Over the 64 pairs (channel `c` in 0..7, pin `p` in 0..7) the 8-bit sequence
seen on that single pin during the data bits of the identification byte, bit `p` of
`_pin_id_lookup[c][j]` for `j = 0..7`, is pairwise distinct. -/
theorem pin_sequences_distinct (c p d q : Nat) (hc : c < 8) (hp : p < 8) (hd : d < 8)
    (hq : q < 8) (hne : c ≠ d ∨ p ≠ q) : pinSequence c p ≠ pinSequence d q := by
  intro h
  have h1 := assemble_pinSequence c p hc hp
  have h2 := assemble_pinSequence d q hd hq
  rw [h] at h1
  omega

theorem pin_sequences_distinct_witness :
    pinSequence 2 5 = [1, 0, 1, 0, 1, 1, 0, 0] ∧ pinSequence 3 5 = [1, 0, 1, 0, 0, 0, 1, 0] ∧
    pinSequence 2 5 ≠ pinSequence 3 5 ∧ pinSequence 2 5 ≠ pinSequence 2 6 :=
  ⟨by decide, by decide,
   pin_sequences_distinct 2 5 3 5 (by decide) (by decide) (by decide) (by decide)
     (Or.inl (by decide)),
   pin_sequences_distinct 2 5 2 6 (by decide) (by decide) (by decide) (by decide)
     (Or.inr (by decide))⟩

/-- C10 (as stated, refuted). Column 4 of the table is neither `0x00` on all
channels nor `0xFF` on exactly one channel: it is `0xFF` on rows 0, 2, 4 and 6. -/
theorem column_4_not_one_hot :
    pinId 0 4 = 0xFF ∧ pinId 2 4 = 0xFF ∧ ¬ (columnAllLow 4 ∨ columnOneHot 4) := by
  decide

/-- C10 (amended). All eight rows share the leading entries `0xAA, 0xCC, 0xF0`;
every entry of columns 3..7 is `0x00` or `0xFF`; column 3 is `0x00` on all channels
and column 7 is `0xFF` on exactly one channel; columns 4..7 hold the binary code of
the 1-based channel number (row `c`, column `4 + i` is `0xFF` exactly when bit `i`
of `c + 1` is 1), so columns 4, 5 and 6 are `0xFF` on four channels each. -/
theorem table_structure (c : Nat) (hc : c < 8) :
    (pinId c 0 = 0xAA ∧ pinId c 1 = 0xCC ∧ pinId c 2 = 0xF0) ∧
    (∀ j, 3 ≤ j → j ≤ 7 → pinId c j = 0x00 ∨ pinId c j = 0xFF) ∧
    (∀ i, i < 4 → (pinId c (4 + i) = 0xFF ↔ (c + 1) / 2 ^ i % 2 = 1)) ∧
    columnAllLow 3 ∧ columnOneHot 7 ∧
    ((List.range 8).filter fun r => pinId r 4 = 0xFF) = [0, 2, 4, 6] ∧
    ((List.range 8).filter fun r => pinId r 5 = 0xFF) = [1, 2, 5, 6] ∧
    ((List.range 8).filter fun r => pinId r 6 = 0xFF) = [3, 4, 5, 6] := by
  have hj : ∀ j, 3 ≤ j → j ≤ 7 → j = 3 ∨ j = 4 ∨ j = 5 ∨ j = 6 ∨ j = 7 := by omega
  refine ⟨?_, ?_, ?_, by decide, by decide, by decide, by decide, by decide⟩
  · interval_cases c <;> decide
  · intro j h3 h7
    rcases hj j h3 h7 with h | h | h | h | h <;> subst h <;> interval_cases c <;> decide
  · intro i hi
    interval_cases i <;> interval_cases c <;> decide

theorem table_structure_witness :
    (pinId 4 0 = 0xAA ∧ pinId 4 1 = 0xCC ∧ pinId 4 2 = 0xF0) ∧
    (pinId 4 4 = 0xFF ∧ pinId 4 5 = 0x00 ∧ pinId 4 6 = 0xFF ∧ pinId 4 7 = 0x00) ∧
    columnAllLow 3 ∧ columnOneHot 7 :=
  have h := table_structure 4 (by decide)
  ⟨h.1, ⟨(h.2.2.1 0 (by decide)).2 (by decide), by decide, (h.2.2.1 2 (by decide)).2 (by decide),
    by decide⟩, h.2.2.2.1, h.2.2.2.2.1⟩

/-! Reachable states: the byte index -/

theorem run_decrement (D : Nat) (s : State) (hb : 0 < s._byte_index)
    (hi : 24 < s._uart_state_index) :
    (run D s)._byte_index = (s._byte_index + 65535) % 65536 ∧
    (run D s)._uart_state_index = 0 := by
  have c1 : s._uart_state_index > 24 ∧ s._byte_index > 0 := ⟨hi, hb⟩
  simp only [run, uart_output_state_index, uart_output_byte_index,
    BYTE_DURATION_IN_CLK_TICKS, if_pos c1]
  by_cases c3 : (s._byte_index + 65535) % 65536 > 0
  · rw [if_pos c3]
    exact ⟨rfl, rfl⟩
  · rw [if_neg c3]
    exact ⟨rfl, rfl⟩

theorem run_byte_index_le (D : Nat) (s : State) (h : s._byte_index ≤ 5) :
    (run D s)._byte_index ≤ 5 := by
  by_cases hb : s._byte_index = 0
  · by_cases hi : 128 < s._uart_state_index
    · rw [run_restart D s hb hi]
    · rw [(run_hold D s (Or.inl ⟨hb, by omega⟩)).1]
      exact h
  · by_cases hi : 24 < s._uart_state_index
    · rw [(run_decrement D s (by omega) hi).1]
      omega
    · rw [(run_hold D s (Or.inr ⟨by omega, by omega⟩)).1]
      exact h

theorem exec_byte_index_le (D : Nat) (evs : List Event) :
    ∀ s : State, s._byte_index ≤ 5 → (exec D s evs)._byte_index ≤ 5 := by
  induction evs with
  | nil => intro s h; exact h
  | cons e evs ih =>
    intro s h
    cases e with
    | tick => exact ih (TIMERA0_ISR s) h
    | poll => exact ih (run D s) (run_byte_index_le D s h)

/-- C11. In every state reachable from the power-on state (`_uart_data = 0`,
`_uart_state_index = 0`, `_byte_index = 0`, any port levels) by any interleaving of
timer interrupts and polls of `run`, `_byte_index` is one of 0, 1, 2, 3, 4, 5. -/
theorem byte_index_in_range (D : Nat) (s0 : State) (evs : List Event) (h0 : powerOn s0) :
    (exec D s0 evs)._byte_index ≤ 5 := by
  obtain ⟨-, -, hb⟩ := h0
  exact exec_byte_index_le D evs s0 (by omega)

theorem byte_index_in_range_witness :
    powerOn (mkState 0 0 0 0x55) ∧
    (exec 0xDEADBEAF (mkState 0 0 0 0x55) (firstEvents 1 258))._byte_index = 5 ∧
    (exec 0xDEADBEAF (mkState 0 0 0 0x55) (firstEvents 1 258))._byte_index ≤ 5 :=
  ⟨by decide, by decide!,
   byte_index_in_range 0xDEADBEAF (mkState 0 0 0 0x55) (firstEvents 1 258) (by decide)⟩

/-! Writes of the offset `_uart_state_index` by `run` -/

/-- C12 (as stated, refuted). The restart poll changes `_byte_index` from 0 to 5 and
leaves the offset at 129, not 0. -/
theorem restart_keeps_offset :
    (mkState 0 129 0 0xFF)._byte_index = 0 ∧
    (run 0xDEADBEAF (mkState 0 129 0 0xFF))._byte_index = 5 ∧
    (run 0xDEADBEAF (mkState 0 129 0 0xFF))._uart_state_index = 129 ∧
    ¬ ((run 0xDEADBEAF (mkState 0 129 0 0xFF))._uart_state_index = 0) := by
  decide

/-- C12 (amended). Whenever `run` decrements `_byte_index` (each of 5->4, 4->3, 3->2,
2->1, 1->0; more generally whenever it changes a nonzero `_byte_index`) the offset
`_uart_state_index` is 0 after the call; the restart 0->5 leaves the offset at its
value, which is above 128. -/
theorem run_offset_after_byte_change (D : Nat) (s : State) :
    (1 ≤ s._byte_index → s._byte_index ≤ 5 → 24 < s._uart_state_index →
      (run D s)._byte_index = s._byte_index - 1 ∧ (run D s)._uart_state_index = 0) ∧
    (0 < s._byte_index → (run D s)._byte_index ≠ s._byte_index →
      (run D s)._uart_state_index = 0) ∧
    (s._byte_index = 0 → (run D s)._byte_index ≠ s._byte_index →
      (run D s)._byte_index = 5 ∧ (run D s)._uart_state_index = s._uart_state_index ∧
      128 < s._uart_state_index) := by
  refine ⟨fun h1 h5 hi => ?_, fun hb hch => ?_, fun hb hch => ?_⟩
  · obtain ⟨e1, e2⟩ := run_decrement D s (by omega) hi
    exact ⟨by omega, e2⟩
  · by_cases hi : 24 < s._uart_state_index
    · exact (run_decrement D s hb hi).2
    · exact absurd (run_hold D s (Or.inr ⟨hb, by omega⟩)).1 hch
  · by_cases hi : 128 < s._uart_state_index
    · rw [run_restart D s hb hi]
      exact ⟨rfl, uart_output_state_index _ _ _, hi⟩
    · exact absurd (run_hold D s (Or.inl ⟨hb, by omega⟩)).1 hch

theorem run_offset_after_byte_change_witness :
    ((run 0xDEADBEAF (mkState 0xAF 25 1 0))._byte_index = 0 ∧
      (run 0xDEADBEAF (mkState 0xAF 25 1 0))._uart_state_index = 0) ∧
    (run 0xDEADBEAF (mkState 0 25 5 0))._uart_state_index = 0 ∧
    ((run 0xDEADBEAF (mkState 0 129 0 0))._byte_index = 5 ∧
      (run 0xDEADBEAF (mkState 0 129 0 0))._uart_state_index = 129 ∧
      128 < (mkState 0 129 0 0)._uart_state_index) :=
  ⟨(run_offset_after_byte_change 0xDEADBEAF (mkState 0xAF 25 1 0)).1
      (by decide) (by decide) (by decide),
   (run_offset_after_byte_change 0xDEADBEAF (mkState 0 25 5 0)).2.1 (by decide) (by decide),
   (run_offset_after_byte_change 0xDEADBEAF (mkState 0 129 0 0)).2.2 rfl (by decide)⟩

/-- C13 (as stated, refuted). A poll that advances the byte index changes the tick
counter: `run` takes `_uart_state_index` from 25 to 0. -/
theorem run_resets_tick_counter :
    (mkState 0 25 5 0xFF)._uart_state_index = 25 ∧
    ¬ ((run 0xDEADBEAF (mkState 0 25 5 0xFF))._uart_state_index =
        (mkState 0 25 5 0xFF)._uart_state_index) ∧
    (run 0xDEADBEAF (mkState 0 25 5 0xFF))._uart_state_index <
        (mkState 0 25 5 0xFF)._uart_state_index := by
  decide

/-- C13 (amended). `uart_output` leaves the tick counter `_uart_state_index`
unchanged, and `run` leaves it unchanged except when it advances the byte index
(counter above 24 and `_byte_index > 0`), where `uart_send` resets it to 0: the
counter is written by the interrupt handler (increment) and by `uart_send` (reset
to 0), so it does not only ever increase. -/
theorem run_tick_counter_frame (D : Nat) (s : State) (sb index : Int) :
    (uart_output sb index s)._uart_state_index = s._uart_state_index ∧
    (∀ d, (uart_send d s)._uart_state_index = 0) ∧
    (¬ (24 < s._uart_state_index ∧ 0 < s._byte_index) →
      (run D s)._uart_state_index = s._uart_state_index) ∧
    (24 < s._uart_state_index ∧ 0 < s._byte_index → (run D s)._uart_state_index = 0) := by
  refine ⟨uart_output_state_index sb index s, fun _ => rfl, fun h => ?_, fun h => ?_⟩
  · by_cases hb : s._byte_index = 0
    · by_cases hi : 128 < s._uart_state_index
      · rw [run_restart D s hb hi]
        exact uart_output_state_index _ _ _
      · exact (run_hold D s (Or.inl ⟨hb, by omega⟩)).2.2
    · exact (run_hold D s (Or.inr ⟨by omega, by omega⟩)).2.2
  · exact (run_decrement D s h.2 h.1).2

theorem run_tick_counter_frame_witness :
    (run 0xDEADBEAF (mkState 0 24 5 0))._uart_state_index = 24 ∧
    (run 0xDEADBEAF (mkState 0 200 0 0))._uart_state_index = 200 ∧
    (run 0xDEADBEAF (mkState 0 25 5 0))._uart_state_index = 0 :=
  ⟨(run_tick_counter_frame 0xDEADBEAF (mkState 0 24 5 0) 0 0).2.2.1 (by decide),
   (run_tick_counter_frame 0xDEADBEAF (mkState 0 200 0 0) 0 0).2.2.1 (by decide),
   (run_tick_counter_frame 0xDEADBEAF (mkState 0 25 5 0) 0 0).2.2.2 (by decide)⟩

/-! The tick counter stays small when `run` is polled between ticks -/

theorem tickInv_tick (s : State) (h : tickInv s true) : tickInv (TIMERA0_ISR s) false := by
  obtain ⟨h5, hz, hs, hr⟩ := h
  have hb : (TIMERA0_ISR s)._byte_index = s._byte_index := rfl
  have hi : (TIMERA0_ISR s)._uart_state_index = (s._uart_state_index + 1) % 65536 := rfl
  unfold tickInv
  rw [hb, hi]
  refine ⟨h5, fun h0 => ?_, fun h1 h4 => ?_, fun h => ?_⟩
  · obtain ⟨a, b⟩ := hz h0
    have : s._uart_state_index ≠ 129 := fun e => Bool.noConfusion (b e)
    exact ⟨by omega, fun _ => rfl⟩
  · obtain ⟨a, b⟩ := hs h1 h4
    have : s._uart_state_index ≠ 25 := fun e => Bool.noConfusion (b e)
    exact ⟨by omega, fun _ => rfl⟩
  · obtain ⟨a, b, c⟩ := hr h
    have : s._uart_state_index ≠ 130 := fun e => Bool.noConfusion (c e)
    exact ⟨by omega, by omega, fun _ => rfl⟩

theorem tickInv_poll (D : Nat) (s : State) (ok : Bool) (h : tickInv s ok) :
    tickInv (run D s) true := by
  obtain ⟨h5, hz, hs, hr⟩ := h
  unfold tickInv
  by_cases hb : s._byte_index = 0
  · obtain ⟨a, -⟩ := hz hb
    by_cases hi : 128 < s._uart_state_index
    · have e1 : (run D s)._byte_index = 5 := by rw [run_restart D s hb hi]
      have e2 : (run D s)._uart_state_index = s._uart_state_index := by
        rw [run_restart D s hb hi]
        exact uart_output_state_index _ _ _
      rw [e1, e2]
      exact ⟨by omega, fun h => by omega, fun h => by omega,
        fun _ => ⟨by omega, by omega, fun h => by omega⟩⟩
    · obtain ⟨e1, -, e2⟩ := run_hold D s (Or.inl ⟨hb, by omega⟩)
      rw [e1, e2]
      exact ⟨by omega, fun _ => ⟨by omega, fun h => by omega⟩, fun h => by omega,
        fun h => by omega⟩
  · by_cases hi : 24 < s._uart_state_index
    · obtain ⟨e1, e2⟩ := run_decrement D s (by omega) hi
      rw [e1, e2]
      exact ⟨by omega, fun _ => ⟨by omega, fun h => by omega⟩,
        fun _ _ => ⟨by omega, fun h => by omega⟩, fun h => by omega⟩
    · obtain ⟨e1, -, e2⟩ := run_hold D s (Or.inr ⟨by omega, by omega⟩)
      rw [e1, e2]
      have h4 : s._byte_index ≤ 4 := by
        by_contra hc
        have := (hr (by omega)).1
        omega
      exact ⟨h5, fun h => by omega, fun _ _ => ⟨by omega, fun h => by omega⟩,
        fun h => by omega⟩

theorem exec_tickInv (D : Nat) (evs : List Event) :
    ∀ (s : State) (ok : Bool), tickInv s ok → polledBetweenTicks ok evs = true →
      ∃ ok2, tickInv (exec D s evs) ok2 := by
  induction evs with
  | nil => intro s ok h _; exact ⟨ok, h⟩
  | cons e evs ih =>
    intro s ok h hp
    cases e with
    | tick =>
      simp only [polledBetweenTicks, Bool.and_eq_true] at hp
      obtain ⟨hok, hp⟩ := hp
      subst hok
      exact ih (TIMERA0_ISR s) false (tickInv_tick s h) hp
    | poll =>
      simp only [polledBetweenTicks] at hp
      exact ih (run D s) true (tickInv_poll D s ok h) hp

theorem polledBetweenTicks_left (pre suf : List Event) :
    ∀ ok : Bool, polledBetweenTicks ok (pre ++ suf) = true →
      polledBetweenTicks ok pre = true := by
  induction pre with
  | nil => intro ok _; rfl
  | cons e pre ih =>
    intro ok h
    cases e with
    | tick =>
      simp only [List.cons_append, polledBetweenTicks, Bool.and_eq_true] at h ⊢
      exact ⟨h.1, ih false h.2⟩
    | poll =>
      simp only [List.cons_append, polledBetweenTicks] at h ⊢
      exact ih true h

theorem tickInv_bound (s : State) (ok : Bool) (h : tickInv s ok) :
    s._uart_state_index ≤ 130 := by
  obtain ⟨h5, hz, hs, hr⟩ := h
  by_cases hb : s._byte_index = 0
  · have := (hz hb).1
    omega
  · by_cases hb5 : s._byte_index = 5
    · exact (hr hb5).2.1
    · have := (hs (by omega) (by omega)).1
      omega

/-- C14. In every execution from the power-on state in which `run` is polled at
least once between consecutive timer interrupts, at every point of the execution
`_uart_state_index` is at most 130, hence below `2^16`, and the modular increment
of the interrupt handler does not wrap there. -/
theorem tick_counter_bounded (D : Nat) (s0 : State) (pre suf : List Event)
    (h0 : powerOn s0) (hw : wellPolled (pre ++ suf)) :
    (exec D s0 pre)._uart_state_index ≤ 130 ∧
    (exec D s0 pre)._uart_state_index < 2 ^ 16 ∧
    (TIMERA0_ISR (exec D s0 pre))._uart_state_index =
      (exec D s0 pre)._uart_state_index + 1 := by
  obtain ⟨-, hi, hb⟩ := h0
  have hinv : tickInv s0 true := by
    unfold tickInv
    rw [hi, hb]
    exact ⟨by omega, fun _ => ⟨by omega, fun h => by omega⟩, fun h => by omega,
      fun h => by omega⟩
  obtain ⟨ok2, h2⟩ := exec_tickInv D pre s0 true hinv (polledBetweenTicks_left pre suf true hw)
  have hle := tickInv_bound _ ok2 h2
  refine ⟨hle, by omega, ?_⟩
  simp only [TIMERA0_ISR]
  omega

theorem tick_counter_bounded_witness :
    powerOn (mkState 0 0 0 0x55) ∧
    wellPolled (firstEvents 1 259 ++ [Event.poll, Event.tick]) ∧
    (exec 0xDEADBEAF (mkState 0 0 0 0x55) (firstEvents 1 259))._uart_state_index = 130 ∧
    (exec 0xDEADBEAF (mkState 0 0 0 0x55) (firstEvents 1 259))._uart_state_index ≤ 130 ∧
    (exec 0xDEADBEAF (mkState 0 0 0 0x55) (firstEvents 1 259))._uart_state_index < 2 ^ 16 ∧
    (TIMERA0_ISR (exec 0xDEADBEAF (mkState 0 0 0 0x55) (firstEvents 1 259)))._uart_state_index
      = (exec 0xDEADBEAF (mkState 0 0 0 0x55) (firstEvents 1 259))._uart_state_index + 1 :=
  have hw : wellPolled (firstEvents 1 259 ++ [Event.poll, Event.tick]) := by decide!
  ⟨by decide, hw, by decide!,
   tick_counter_bounded 0xDEADBEAF (mkState 0 0 0 0x55) (firstEvents 1 259)
     [Event.poll, Event.tick] (by decide) hw⟩

/-! Port P4 and the `SET_PORTS` branches of `uart_output` -/

/-- C15. `uart_output` writes P4 only in the identification data-bit branch: with
`send_bit_id = false` (any index), or with index 0 or index outside 1..8 (negative
indices included), `P4OUT` keeps its prior value, while the seven ports P1, P2, P3,
P5, P6, P7, P8 are all set to `0x00` (index 0, or an ordinary data bit equal to 0)
or all to `0xFF` (an ordinary data bit equal to 1, or index outside 0..8). -/
theorem uart_output_P4_frame (s : State) (sb index : Int)
    (h : sb = 0 ∨ index = 0 ∨ index < 1 ∨ 8 < index) :
    (uart_output sb index s).P4OUT = s.P4OUT ∧
    (index = 0 → setPortsAt (uart_output sb index s) 0x00) ∧
    (sb = 0 → 1 ≤ index → index ≤ 8 →
      setPortsAt (uart_output sb index s)
        (level (s._uart_data / 2 ^ (index - 1).toNat % 2))) ∧
    (index < 0 ∨ 8 < index → setPortsAt (uart_output sb index s) 0xFF) := by
  refine ⟨?_, fun h0 => ?_, fun hsb h1 h8 => ?_, fun ho => ?_⟩
  · by_cases h0 : index = 0
    · simp only [uart_output, if_pos h0, SET_PORTS_OUT]
    · by_cases hr : index ≥ 1 ∧ index < 1 + 8
      · have hsb : sb = 0 := by omega
        have hn : ¬ sb ≠ 0 := fun hc => hc hsb
        simp only [uart_output, if_neg h0, if_pos hr, if_neg hn, SET_PORTS_OUT]
        split_ifs <;> rfl
      · simp only [uart_output, if_neg h0, if_neg hr, SET_PORTS_OUT]
  · simp [uart_output, if_pos h0, setPortsAt, SET_PORTS_OUT]
  · have hne : index ≠ 0 := by omega
    have hr : index ≥ 1 ∧ index < 1 + 8 := ⟨h1, by omega⟩
    have hn : ¬ sb ≠ 0 := fun hc => hc hsb
    have hm := Nat.mod_two_eq_zero_or_one (s._uart_data / 2 ^ (index - 1).toNat)
    simp only [uart_output, if_neg hne, if_pos hr, if_neg hn, shift_and_one, level]
    generalize s._uart_data / 2 ^ (index - 1).toNat % 2 = b at hm
    rcases hm with hm | hm <;> subst hm <;> simp [setPortsAt, SET_PORTS_OUT]
  · have hne : index ≠ 0 := by omega
    have hr : ¬ (index ≥ 1 ∧ index < 1 + 8) := by omega
    simp only [uart_output, if_neg hne, if_neg hr]
    simp [setPortsAt, SET_PORTS_OUT]

theorem uart_output_P4_frame_witness :
    (uart_output 0 3 (mkState 0x34 3 3 0x5A)).P4OUT = 0x5A ∧
    setPortsAt (uart_output 0 3 (mkState 0x34 3 3 0x5A)) 0xFF ∧
    (uart_output 1 (-7) (mkState 0x34 3 0 0x5A)).P4OUT = 0x5A ∧
    setPortsAt (uart_output 1 (-7) (mkState 0x34 3 0 0x5A)) 0xFF ∧
    (uart_output 1 0 (mkState 0x34 0 0 0x5A)).P4OUT = 0x5A ∧
    setPortsAt (uart_output 1 0 (mkState 0x34 0 0 0x5A)) 0x00 :=
  ⟨(uart_output_P4_frame (mkState 0x34 3 3 0x5A) 0 3 (Or.inl rfl)).1,
   (uart_output_P4_frame (mkState 0x34 3 3 0x5A) 0 3 (Or.inl rfl)).2.2.1 rfl
     (by decide) (by decide),
   (uart_output_P4_frame (mkState 0x34 3 0 0x5A) 1 (-7) (Or.inr (Or.inr (Or.inl (by decide))))).1,
   (uart_output_P4_frame (mkState 0x34 3 0 0x5A) 1 (-7)
     (Or.inr (Or.inr (Or.inl (by decide))))).2.2.2 (Or.inl (by decide)),
   (uart_output_P4_frame (mkState 0x34 0 0 0x5A) 1 0 (Or.inr (Or.inl rfl))).1,
   (uart_output_P4_frame (mkState 0x34 0 0 0x5A) 1 0 (Or.inr (Or.inl rfl))).2.1 rfl⟩

/-! The identification byte decoded on a single pin -/

/-- C16. For every table row `c` in 0..7 and pin `p` in 0..7, the byte assembled
LSB first from bit `p` of `_pin_id_lookup[c][j]`, `j = 0..7`, equals `16*(c+1) + p`:
its low three bits are the pin number, bit 3 is 0 and the high nibble is the 1-based
port number. -/
theorem identification_byte_value (c p : Nat) (hc : c < 8) (hp : p < 8) :
    assemble (pinSequence c p) = 16 * (c + 1) + p ∧
    assemble (pinSequence c p) % 8 = p ∧
    assemble (pinSequence c p) / 8 % 2 = 0 ∧
    assemble (pinSequence c p) / 16 = c + 1 := by
  have h := assemble_pinSequence c p hc hp
  rw [h]
  omega

theorem identification_byte_value_witness :
    assemble (pinSequence 3 6) = 0x46 ∧
    assemble (pinSequence 3 6) % 8 = 6 ∧
    assemble (pinSequence 3 6) / 8 % 2 = 0 ∧
    assemble (pinSequence 3 6) / 16 = 3 + 1 :=
  identification_byte_value 3 6 (by decide) (by decide)

/-! The transient value `_byte_index = 5` -/

theorem run_levels (D : Nat) (s : State) :
    levels (run D s) =
      levels (uart_output (if s._byte_index = 0 then 1 else 0)
        (toInt16 s._uart_state_index) s) := by
  simp only [run]
  split_ifs <;> rfl

theorem uart_output_idle (sb : Int) (u : Nat) (s : State) (h8 : 8 < u) (hu : u < 65536) :
    uart_output sb (toInt16 u) s = SET_PORTS_OUT 0xFF s := by
  have hm : u % 65536 = u := Nat.mod_eq_of_lt hu
  have hne : toInt16 u ≠ 0 := by
    simp only [toInt16, hm]
    split_ifs <;> omega
  have hr : ¬ (toInt16 u ≥ 1 ∧ toInt16 u < 1 + 8) := by
    simp only [toInt16, hm]
    split_ifs <;> omega
  simp only [uart_output, if_neg hne, if_neg hr]

theorem fiveInv_step (D : Nat) (s : State) (h : fiveInv s) :
    (s._uart_state_index + 1 < 65536 → fiveInv (TIMERA0_ISR s)) ∧ fiveInv (run D s) := by
  obtain ⟨h5, hlt, hf⟩ := h
  refine ⟨fun hw => ?_, ?_⟩
  · have hb : (TIMERA0_ISR s)._byte_index = s._byte_index := rfl
    have hi : (TIMERA0_ISR s)._uart_state_index = (s._uart_state_index + 1) % 65536 := rfl
    unfold fiveInv
    rw [hb, hi]
    exact ⟨h5, by omega, fun h => by have := hf h; omega⟩
  · unfold fiveInv
    by_cases hb : s._byte_index = 0
    · by_cases hi : 128 < s._uart_state_index
      · have e1 : (run D s)._byte_index = 5 := by rw [run_restart D s hb hi]
        have e2 : (run D s)._uart_state_index = s._uart_state_index := by
          rw [run_restart D s hb hi]
          exact uart_output_state_index _ _ _
        rw [e1, e2]
        exact ⟨by omega, hlt, fun _ => hi⟩
      · obtain ⟨e1, -, e2⟩ := run_hold D s (Or.inl ⟨hb, by omega⟩)
        rw [e1, e2]
        exact ⟨h5, hlt, fun h => by omega⟩
    · by_cases hi : 24 < s._uart_state_index
      · obtain ⟨e1, e2⟩ := run_decrement D s (by omega) hi
        rw [e1, e2]
        exact ⟨by omega, by omega, fun h => by omega⟩
      · obtain ⟨e1, -, e2⟩ := run_hold D s (Or.inr ⟨by omega, by omega⟩)
        rw [e1, e2]
        exact ⟨h5, hlt, fun h => by have := hf h; omega⟩

theorem exec_fiveInv (D : Nat) (evs : List Event) :
    ∀ s : State, fiveInv s → noWrap D s evs → fiveInv (exec D s evs) := by
  induction evs with
  | nil => intro s h _; exact h
  | cons e evs ih =>
    intro s h hw
    cases e with
    | tick =>
      simp only [noWrap, noWrapScan, Bool.and_eq_true, decide_eq_true_eq] at hw
      exact ih (TIMERA0_ISR s) ((fiveInv_step D s h).1 hw.1) hw.2
    | poll =>
      simp only [noWrap, noWrapScan] at hw
      exact ih (run D s) (fiveInv_step D s h).2 hw

/-- C17. In every state reached from power-on by ticks and polls without wrap of the
counter, `_byte_index = 5` implies `_uart_state_index > 128`; hence the poll made in
such a state renders the stop/idle level (the `SET_PORTS` ports high, as in the
stop branch of `uart_output`), decrements `_byte_index` to 4, loads the most
significant identifier byte and resets the offset. -/
theorem byte_index_five_transient (D : Nat) (s0 : State) (evs : List Event)
    (h0 : powerOn s0) (hw : noWrap D s0 evs) (h5 : (exec D s0 evs)._byte_index = 5) :
    128 < (exec D s0 evs)._uart_state_index ∧
    levels (run D (exec D s0 evs)) = levels (SET_PORTS_OUT 0xFF (exec D s0 evs)) ∧
    setPortsAt (run D (exec D s0 evs)) 0xFF ∧
    (run D (exec D s0 evs))._byte_index = 4 ∧
    (run D (exec D s0 evs))._uart_data = (D >>> 24) % 256 ∧
    (run D (exec D s0 evs))._uart_state_index = 0 := by
  obtain ⟨-, hi0, hb0⟩ := h0
  have hinv0 : fiveInv s0 := by
    unfold fiveInv
    rw [hi0, hb0]
    exact ⟨by omega, by omega, fun h => by omega⟩
  obtain ⟨-, hlt, hf⟩ := exec_fiveInv D evs s0 hinv0 hw
  have hi := hf h5
  have hne : ¬ (exec D s0 evs)._byte_index = 0 := by omega
  have hl : levels (run D (exec D s0 evs)) = levels (SET_PORTS_OUT 0xFF (exec D s0 evs)) := by
    rw [run_levels, if_neg hne, uart_output_idle 0 _ _ (by omega) hlt]
  obtain ⟨a1, a2, a3⟩ := run_advance D (exec D s0 evs) (by omega) (by omega) (by omega)
  refine ⟨hi, hl, ?_, by omega, ?_, a2⟩
  · simp only [levels, SET_PORTS_OUT, List.cons.injEq, and_true] at hl
    obtain ⟨p1, p2, p3, -, p5, p6, p7, p8⟩ := hl
    exact ⟨p1, p2, p3, p5, p6, p7, p8⟩
  · rw [a3, h5]

theorem byte_index_five_transient_witness :
    powerOn (mkState 0 0 0 0x55) ∧
    noWrap 0xDEADBEAF (mkState 0 0 0 0x55) (firstEvents 1 258) ∧
    (exec 0xDEADBEAF (mkState 0 0 0 0x55) (firstEvents 1 258))._byte_index = 5 ∧
    128 < (exec 0xDEADBEAF (mkState 0 0 0 0x55) (firstEvents 1 258))._uart_state_index ∧
    (run 0xDEADBEAF (exec 0xDEADBEAF (mkState 0 0 0 0x55) (firstEvents 1 258)))._byte_index
      = 4 ∧
    (run 0xDEADBEAF (exec 0xDEADBEAF (mkState 0 0 0 0x55) (firstEvents 1 258)))._uart_data
      = 0xDE :=
  have hw : noWrap 0xDEADBEAF (mkState 0 0 0 0x55) (firstEvents 1 258) := by decide!
  have h5 : (exec 0xDEADBEAF (mkState 0 0 0 0x55) (firstEvents 1 258))._byte_index = 5 := by
    decide!
  have h := byte_index_five_transient 0xDEADBEAF (mkState 0 0 0 0x55) (firstEvents 1 258)
    (by decide) hw h5
  ⟨by decide, hw, h5, h.1, h.2.2.2.1, h.2.2.2.2.1.trans (by decide)⟩

/-! The first frame after power-on -/

/-- C19. From the power-on state, every poll made while at most 128 ticks have
occurred (the offset has not yet exceeded 128) is exactly a call of `uart_output`
with `send_bit_id = true` at the current offset: it leaves `_byte_index = 0` and
`_uart_data = 0`, so no device-identifier byte is loaded before the first restart. -/
theorem first_frame_is_identification (D : Nat) (s0 : State) (evs : List Event)
    (h0 : powerOn s0) (ht : ticks evs ≤ 128) :
    (exec D s0 evs)._byte_index = 0 ∧ (exec D s0 evs)._uart_data = 0 ∧
    (exec D s0 evs)._uart_state_index = ticks evs ∧
    run D (exec D s0 evs) =
      uart_output 1 ((exec D s0 evs)._uart_state_index : Int) (exec D s0 evs) ∧
    (run D (exec D s0 evs))._byte_index = 0 ∧ (run D (exec D s0 evs))._uart_data = 0 := by
  obtain ⟨hd, hi, hb⟩ := h0
  obtain ⟨e1, e2, e3⟩ := exec_hold D evs s0 (Or.inl ⟨hb, by omega⟩)
  rw [hb] at e1
  rw [hd] at e2
  rw [hi, Nat.zero_add] at e3
  have hrun := run_idle_eq D (exec D s0 evs) e1 (by omega)
  refine ⟨e1, e2, e3, hrun, ?_, ?_⟩
  · rw [hrun, uart_output_byte_index, e1]
  · rw [hrun, uart_output_data, e2]

theorem first_frame_is_identification_witness :
    powerOn (mkState 0 0 0 0x55) ∧ ticks (firstEvents 3 17) ≤ 128 ∧
    (exec 0xDEADBEAF (mkState 0 0 0 0x55) (firstEvents 3 17))._uart_state_index = 5 ∧
    levels (run 0xDEADBEAF (exec 0xDEADBEAF (mkState 0 0 0 0x55) (firstEvents 3 17))) =
      [0xFF, 0x00, 0xFF, 0x00, 0xFF, 0x00, 0xFF, 0x00] ∧
    (run 0xDEADBEAF (exec 0xDEADBEAF (mkState 0 0 0 0x55) (firstEvents 3 17)))._byte_index
      = 0 ∧
    (run 0xDEADBEAF (exec 0xDEADBEAF (mkState 0 0 0 0x55) (firstEvents 3 17)))._uart_data
      = 0 :=
  have h := first_frame_is_identification 0xDEADBEAF (mkState 0 0 0 0x55) (firstEvents 3 17)
    (by decide) (by decide!)
  ⟨by decide, by decide!, h.2.2.1.trans (by decide!), by decide!, h.2.2.2.2.1, h.2.2.2.2.2⟩

/-! Cycle period under a fixed schedule with at least two polls per tick -/

theorem ticks_firstEvents_succ (n j : Nat) :
    ticks (firstEvents n (j + 1)) =
      ticks (firstEvents n j) + (if j % (n + 1) = 0 then 1 else 0) := by
  simp only [ticks, firstEvents, List.range_succ, List.map_append, List.map_cons,
    List.map_nil, List.count_append, schedule]
  by_cases h : j % (n + 1) = 0
  · simp [h]
  · simp [h]

theorem ticks_firstEvents (n j : Nat) : ticks (firstEvents n j) = (j + n) / (n + 1) := by
  induction j with
  | zero =>
    have : (0 + n) / (n + 1) = 0 := Nat.div_eq_of_lt (by omega)
    rw [this]
    rfl
  | succ j ih =>
    rw [ticks_firstEvents_succ, ih]
    have e : j + 1 + n = (j + n) + 1 := by omega
    rw [e, Nat.succ_div]
    have hd : (n + 1 ∣ j + n + 1) ↔ j % (n + 1) = 0 := by
      rw [Nat.add_assoc, Nat.dvd_add_self_right, Nat.dvd_iff_mod_eq_zero]
    by_cases h : j % (n + 1) = 0
    · rw [if_pos h, if_pos (hd.2 h)]
    · rw [if_neg h, if_neg (fun hc => h (hd.1 hc))]

theorem ticks_firstEvents_add (n j c : Nat) :
    ticks (firstEvents n (j + c * (n + 1))) = ticks (firstEvents n j) + c := by
  rw [ticks_firstEvents, ticks_firstEvents]
  have e : j + c * (n + 1) + n = (j + n) + c * (n + 1) := by omega
  rw [e, Nat.add_mul_div_right _ _ (by omega : 0 < n + 1)]

theorem periodInv_ticks_le (k m T φ : Nat) (h1 : 1 ≤ φ) (he : m + 2 = T * k + φ)
    (hm : m + 2 ≤ 229 * k) : T ≤ 228 := by
  by_contra hc
  have := Nat.mul_le_mul_right k (show 229 ≤ T by omega)
  omega

theorem periodInv_step (n D : Nat) (s : State) (p m T φ : Nat) (hn : 2 ≤ n)
    (hm : m + 2 ≤ 229 * (n + 1)) (h : periodInv (n + 1) s p m T φ) :
    ∃ T2 φ2, periodInv (n + 1) (step D s (schedule n p)) (p + 1) (m + 1) T2 φ2 := by
  obtain ⟨h1, hk, he, hp, hs⟩ := h
  have hT := periodInv_ticks_le (n + 1) m T φ h1 he hm
  unfold schedule
  by_cases hq : p % (n + 1) = 0
  · rw [if_pos hq]
    have hφ : φ = n + 1 := by
      by_contra hc
      rw [hq, Nat.mod_eq_of_lt (show φ < n + 1 by omega)] at hp
      omega
    have hb : (TIMERA0_ISR s)._byte_index = s._byte_index := rfl
    have hi : (TIMERA0_ISR s)._uart_state_index = (s._uart_state_index + 1) % 65536 := rfl
    have hmul : (T + 1) * (n + 1) = T * (n + 1) + (n + 1) := Nat.succ_mul T (n + 1)
    have hp1 : (p + 1) % (n + 1) = 1 % (n + 1) := by
      rw [Nat.mod_eq_of_lt (show 1 < n + 1 by omega)]
      exact (succ_mod_eq_one p (n + 1) (by omega)).2 hq
    refine ⟨T + 1, 1, Nat.le_refl 1, by omega, by omega, hp1, ?_⟩
    simp only [step]
    rw [hb, hi]
    rcases hs with ⟨a, b, c, d⟩ | ⟨a, b, c, d, e⟩ | ⟨a, c, d, e⟩
    · omega
    · have hne : s._uart_state_index ≠ 25 := fun h => by have := e h; omega
      exact Or.inr (Or.inl ⟨a, b, by omega, by omega, fun _ => trivial⟩)
    · have hne : s._uart_state_index ≠ 129 := fun h => by have := e h; omega
      exact Or.inr (Or.inr ⟨a, by omega, by omega, fun _ => trivial⟩)
  · rw [if_neg hq]
    have hφ : φ < n + 1 := by
      by_contra hc
      have : φ = n + 1 := by omega
      rw [this, Nat.mod_self] at hp
      exact hq hp
    have hp1 : (p + 1) % (n + 1) = (φ + 1) % (n + 1) := by
      rw [Nat.add_mod, hp, ← Nat.add_mod]
    refine ⟨T, φ + 1, by omega, by omega, by omega, hp1, ?_⟩
    simp only [step]
    rcases hs with ⟨a, b, c, d⟩ | ⟨a, b, c, d, e⟩ | ⟨a, c, d, e⟩
    · obtain ⟨e1, e2⟩ := run_decrement D s (by omega) (by omega)
      rw [e1, e2]
      exact Or.inr (Or.inl ⟨by omega, by omega, by omega, by omega, fun h => by omega⟩)
    · by_cases hi : 24 < s._uart_state_index
      · obtain ⟨e1, e2⟩ := run_decrement D s (by omega) hi
        rw [e1, e2]
        by_cases hb1 : s._byte_index = 1
        · exact Or.inr (Or.inr ⟨by omega, by omega, by omega, fun h => by omega⟩)
        · exact Or.inr (Or.inl ⟨by omega, by omega, by omega, by omega, fun h => by omega⟩)
      · obtain ⟨e1, -, e2⟩ := run_hold D s (Or.inr ⟨by omega, by omega⟩)
        rw [e1, e2]
        exact Or.inr (Or.inl ⟨a, b, c, d, fun h => by omega⟩)
    · obtain ⟨e1, -, e2⟩ := run_hold D s (Or.inl ⟨a, by omega⟩)
      rw [e1, e2]
      exact Or.inr (Or.inr ⟨a, c, d, fun h => by omega⟩)

theorem periodInv_stateAt (n D : Nat) (s0 : State) (b0 : Nat) (hn : 2 ≤ n)
    (hs : stateAt n D s0 b0 = restartState) (hp : b0 % (n + 1) = 2 % (n + 1)) :
    ∀ m, m + 1 ≤ 229 * (n + 1) →
      ∃ T φ, periodInv (n + 1) (stateAt n D s0 (b0 + m)) (b0 + m) m T φ := by
  intro m
  induction m with
  | zero =>
    intro _
    refine ⟨0, 2, by omega, by omega, by omega, hp, Or.inl ?_⟩
    rw [Nat.add_zero, hs]
    exact ⟨rfl, rfl, rfl, rfl⟩
  | succ m ih =>
    intro hm
    obtain ⟨T, φ, h⟩ := ih (by omega)
    rw [← Nat.add_assoc, stateAt_succ]
    exact periodInv_step n D _ (b0 + m) m T φ hn (by omega) h

/-- C18. Under the fixed schedule in which every tick is followed by `n ≥ 2` polls,
started at power-on: after a restart poll (event `j`) the next restart poll is event
`j + 229 (n + 1)`, with no restart in between, and exactly 229 ticks lie between the
two: 4 identifier bytes of 25 ticks each plus 129 ticks for the identification byte
and the pause. -/
theorem cycle_period (n D : Nat) (s0 : State) (j : Nat) (hn : 2 ≤ n) (h0 : powerOn s0)
    (hr : restartAt n D s0 j) :
    restartAt n D s0 (j + 229 * (n + 1)) ∧
    (∀ m, 0 < m → m < 229 * (n + 1) → ¬ restartAt n D s0 (j + m)) ∧
    ticks (firstEvents n (j + 229 * (n + 1))) = ticks (firstEvents n j) + 229 ∧
    229 = 4 * (BYTE_DURATION_IN_CLK_TICKS + 1) + (TX_PAUSE_IN_CLK_TICKS + 1) := by
  obtain ⟨hs, hp⟩ := restartAt_state n D s0 j (by omega) h0 hr
  have hinv := periodInv_stateAt n D s0 (j + 1) hn hs hp
  refine ⟨?_, fun m hm0 hm => ?_, ticks_firstEvents_add n j 229, rfl⟩
  · obtain ⟨T, φ, h1, hk, he, hph, hst⟩ := hinv (229 * (n + 1) - 1) (by omega)
    have hpos : j + 1 + (229 * (n + 1) - 1) = j + 229 * (n + 1) := by omega
    rw [hpos] at hph hst
    have hT1 : 229 ≤ T := by
      by_contra hc
      have := Nat.mul_le_mul_right (n + 1) (show T ≤ 228 by omega)
      omega
    have hT2 : T ≤ 229 := by
      by_contra hc
      have := Nat.mul_le_mul_right (n + 1) (show 230 ≤ T by omega)
      omega
    have hT : T = 229 := by omega
    subst hT
    have hφ : φ = 1 := by omega
    subst hφ
    rw [Nat.mod_eq_of_lt (show 1 < n + 1 by omega)] at hph
    have hev : schedule n (j + 229 * (n + 1)) = Event.poll := by
      unfold schedule
      rw [if_neg (by omega)]
    rcases hst with ⟨a, b, c, d⟩ | ⟨a, b, c, d, e⟩ | ⟨a, c, d, e⟩
    · omega
    · omega
    · refine ⟨hev, ?_, ?_, a⟩
      · simp only [BYTE_DURATION_IN_CLK_TICKS]
        omega
      · simp only [TX_PAUSE_IN_CLK_TICKS]
        omega
  · obtain ⟨T, φ, h1, hk, he, hph, hst⟩ := hinv (m - 1) (by omega)
    have hpos : j + 1 + (m - 1) = j + m := by omega
    rw [hpos] at hph hst
    have hT := periodInv_ticks_le (n + 1) (m - 1) T φ h1 he (by omega)
    rintro ⟨-, -, hi, hb⟩
    simp only [TX_PAUSE_IN_CLK_TICKS] at hi
    rcases hst with ⟨a, b, c, d⟩ | ⟨a, b, c, d, e⟩ | ⟨a, c, d, e⟩
    · omega
    · omega
    · omega

theorem cycle_period_witness :
    powerOn (mkState 0 0 0 0x55) ∧
    restartAt 2 0xDEADBEAF (mkState 0 0 0 0x55) 385 ∧
    restartAt 2 0xDEADBEAF (mkState 0 0 0 0x55) (385 + 229 * (2 + 1)) ∧
    (∀ m, 0 < m → m < 229 * (2 + 1) →
      ¬ restartAt 2 0xDEADBEAF (mkState 0 0 0 0x55) (385 + m)) ∧
    ticks (firstEvents 2 (385 + 229 * (2 + 1))) = ticks (firstEvents 2 385) + 229 ∧
    229 = 4 * (BYTE_DURATION_IN_CLK_TICKS + 1) + (TX_PAUSE_IN_CLK_TICKS + 1) :=
  have hr : restartAt 2 0xDEADBEAF (mkState 0 0 0 0x55) 385 := by decide!
  ⟨by decide, hr, cycle_period 2 0xDEADBEAF (mkState 0 0 0 0x55) 385 (by decide) (by decide) hr⟩

end Identifier
